import Mathlib

/-!
Verification of the HerzMapper image-to-tilemap pipeline (src/main.rs).

The development shallowly embeds the pure content of `run()` and its helper
functions:

* string utilities mirroring the Rust std functions used by the palette,
  world-law and hex parsers (`str::lines`, `str::split_once`, `str::trim`,
  `u32::from_str_radix`, `str::trim_start_matches`);
* a small JSON value type `J` standing for `serde_json::Value` (objects are
  association lists; the claims never depend on key ordering);
* an `Image` as dimensions plus a pixel function (row-major, top-down, the
  layout of `ImageBuffer`);
* the palette loader, the nearest-colour lookup, the quantize/rewrite phases,
  the run-length encoder, and the document-merging phases.

All colour arithmetic in the source runs on `f64` values that originate from
`u8` components (0..255); squared distances are at most `3 * 255^2`, so every
`f64` operation involved is exact and the `Nat`/`Int` model below is faithful.
Rust panics (`expect`, `unwrap`, indexing) are modelled as `Except.error`
values carrying the panic context.
-/

/-! ## String utilities (Rust std behaviour, modelled on `List Char`) -/

/-- Split a character list at every occurrence of `sep` (like `str::split`). -/
def splitChar (sep : Char) : List Char → List (List Char)
  | [] => [[]]
  | c :: rest =>
    match splitChar sep rest with
    | r :: rs => if c = sep then [] :: r :: rs else (c :: r) :: rs
    | [] => [[]]

/-- `str::lines`: split at every LF, drop a final empty segment (so a trailing
newline does not produce an extra line), and strip one trailing CR from each
line. -/
def rustLines (s : String) : List (List Char) :=
  let parts := splitChar '\n' s.data
  let parts := if parts.getLast? = some [] then parts.dropLast else parts
  parts.map (fun l => if l.getLast? = some '\r' then l.dropLast else l)

/-- `str::split_once`: split at the first occurrence of `sep`, if any. -/
def splitOnceChar (sep : Char) : List Char → Option (List Char × List Char)
  | [] => none
  | c :: rest =>
    if c = sep then some ([], rest)
    else (splitOnceChar sep rest).map (fun p => (c :: p.1, p.2))

/-- `str::trim`: strip leading and trailing whitespace. -/
def trimChars (cs : List Char) : List Char :=
  ((cs.dropWhile Char.isWhitespace).reverse.dropWhile Char.isWhitespace).reverse

/-- ASCII lower-casing of one character (for `eq_ignore_ascii_case`). -/
def asciiLowerChar (c : Char) : Char :=
  if 'A' ≤ c ∧ c ≤ 'Z' then Char.ofNat (c.toNat + 32) else c

/-- `str::eq_ignore_ascii_case` against a lower-case reference word. -/
def eqIgnoreAsciiCase (cs : List Char) (ref : List Char) : Bool :=
  cs.map asciiLowerChar = ref

/-- Value of one hexadecimal digit. -/
def hexDigit (c : Char) : Option Nat :=
  if '0' ≤ c ∧ c ≤ '9' then some (c.toNat - 48)
  else if 'a' ≤ c ∧ c ≤ 'f' then some (c.toNat - 87)
  else if 'A' ≤ c ∧ c ≤ 'F' then some (c.toNat - 55)
  else none

/-- `u32::from_str_radix(s, 16)`: an optional leading plus sign, then at least
one hex digit, with overflow past `2^32 - 1` rejected. -/
def parseHexU32 (cs : List Char) : Option Nat :=
  let cs := match cs with
    | '+' :: rest => rest
    | other => other
  if cs = [] then none
  else cs.foldlM (fun acc c =>
    (hexDigit c).bind (fun d =>
      let v := acc * 16 + d
      if v < 4294967296 then some v else none)) 0

/-! ## Colours and the palette loader -/

/-- An 8-bit RGB triple.  Components are `Nat`; every colour produced by the
source is componentwise below 256. -/
abbrev Color := Nat × Nat × Nat

/-- `hex_to_rgb` (main.rs lines 60-68): strip all leading hash signs, parse as
hexadecimal `u32`, and take the low three bytes. -/
def hex_to_rgb (cs : List Char) : Option Color :=
  (parseHexU32 (cs.dropWhile (fun c => c = '#'))).map (fun c =>
    ((c >>> 16) &&& 0xff, (c >>> 8) &&& 0xff, c &&& 0xff))

/-- Palette loading (main.rs lines 101-109): each line `id #RRGGBB` yields an
id and a point; malformed lines (no space, bad hex) are skipped. The two lists
are pushed in lockstep. -/
def palStep (st : List String × List Color) (line : List Char) :
    List String × List Color :=
  match splitOnceChar ' ' line with
  | some (id, hex) =>
    match hex_to_rgb hex with
    | some col => (st.1 ++ [String.mk id], st.2 ++ [col])
    | none => st
  | none => st

def parsePalette (content : String) : List String × List Color :=
  (rustLines content).foldl palStep ([], [])

/-- Index construction (main.rs lines 111-115).  The source merely inserts
every parsed point into the kd-tree; there is no failure branch of any kind in
this phase, which the `Except` result type makes visible. -/
def buildPaletteIndex (content : String) : Except String (List String × List Color) :=
  Except.ok (parsePalette content)

/-! ## The JSON document model -/

/-- A `serde_json::Value`.  Objects are association lists; the default
`serde_json` map is keyed and the claims below never depend on key order. -/
inductive J where
  | null : J
  | bool : Bool → J
  | num : Nat → J
  | str : String → J
  | arr : List J → J
  | obj : List (String × J) → J

/-- A JSON object body (the top-level `map_data` document is an object). -/
abbrev Doc := List (String × J)

/-- Field lookup in an object body (`Value::get`). -/
def docGet (d : Doc) (k : String) : Option J :=
  (d.find? (fun p => p.1 = k)).map (fun p => p.2)

/-- Field update in an object body (`map[key] = value`): replace the first
binding of the key, or append a fresh binding. -/
def docSet : Doc → String → J → Doc
  | [], k, v => [(k, v)]
  | (k1, v1) :: rest, k, v =>
    if k1 = k then (k, v) :: rest else (k1, v1) :: docSet rest k v

theorem docGet_docSet_self (d : Doc) (k : String) (v : J) :
    docGet (docSet d k v) k = some v := by
  induction d with
  | nil => simp [docGet, docSet]
  | cons p rest ih =>
    obtain ⟨k1, v1⟩ := p
    by_cases h : k1 = k
    · simp [docGet, docSet, h]
    · simp only [docSet, if_neg h]
      simpa [docGet, h] using ih

theorem docGet_docSet_ne (d : Doc) (k k2 : String) (v : J) (hne : k2 ≠ k) :
    docGet (docSet d k v) k2 = docGet d k2 := by
  induction d with
  | nil => simp [docGet, docSet, Ne.symm hne]
  | cons p rest ih =>
    obtain ⟨k1, v1⟩ := p
    by_cases h : k1 = k
    · subst h
      simp [docGet, docSet, Ne.symm hne]
    · by_cases h2 : k1 = k2
      · subst h2
        simp [docGet, docSet, if_neg h]
      · simp only [docSet, if_neg h]
        simpa [docGet, h2] using ih

/-! ## Images -/

/-- An RGB image buffer: dimensions plus a pixel function.  `pix x y` is the
pixel in column `x` of row `y`, rows stored top-down as in `ImageBuffer`. -/
structure Image where
  width : Nat
  height : Nat
  pix : Nat → Nat → Color

/-- The pixel stream `img.pixels().enumerate()`: linear indices `0 .. w*h` in
row-major top-down order, each paired with its pixel. -/
def pixelSeq (img : Image) : List (Nat × Color) :=
  (List.range (img.width * img.height)).map
    (fun i => (i, img.pix (i % img.width) (i / img.width)))

/-- The multiset of colours present in the image (`img.pixels().map(..)`).
The source collects them into a `HashSet`; only membership in the collection
is ever observed, so the duplicates kept here are irrelevant. -/
def pixelColors (img : Image) : List Color :=
  (pixelSeq img).map (fun p => p.2)

/-- Target dimension of `resize_to_nearest_64` for one axis (main.rs line 54):
round up to a multiple of 64, with a floor of two 64-pixel units. -/
def nearest64 (d : Nat) : Nat := (Nat.max ((d + 63) / 64) 2) * 64

/-- The pixel resampling performed by the external image crate
(`imageops::resize` with `FilterType::Nearest`): given the source image and
the target dimensions it yields the target pixel function.  Treated as an
abstract collaborator; `resize_to_nearest_64` fixes only the dimensions. -/
abbrev Resample := Image → Nat → Nat → (Nat → Nat → Color)

/-- `resize_to_nearest_64` (main.rs lines 52-57). -/
def resize_to_nearest_64 (resample : Resample) (img : Image) : Image :=
  let nw := nearest64 img.width
  let nh := nearest64 img.height
  ⟨nw, nh, resample img nw nh⟩

/-! ## Nearest-colour lookup and quantization -/

/-- Squared Euclidean distance between two RGB points, exactly as the `f64`
kd-tree computes it (all coordinates are integers below 256, so the `f64`
arithmetic is exact). -/
def sqDist (p q : Color) : Int :=
  ((p.1 : Int) - q.1) ^ 2 + ((p.2.1 : Int) - q.2.1) ^ 2 + ((p.2.2 : Int) - q.2.2) ^ 2

/-- Scan for the closest point, keeping the current best; on equal distances
the earlier (lower-index) point is kept, matching the deterministic
first-inserted tie behaviour the spec ascribes to the index. -/
def nearestAux (q : Color) : List (Nat × Color) → (Nat × Color) → (Nat × Color)
  | [], best => best
  | ip :: rest, best =>
    nearestAux q rest (if sqDist ip.2 q < sqDist best.2 q then ip else best)

/-- The `(index, point)` pairs the kd-tree is built from
(`palette_points.iter().enumerate()`, main.rs line 113). -/
def enumColors (n : Nat) : List Color → List (Nat × Color)
  | [] => []
  | p :: t => (n, p) :: enumColors (n + 1) t

/-- `kdtree.nearest_one` (main.rs line 134): index of a minimum-distance
palette point, or `none` for an empty index (`kiddo` yields no valid
neighbour there and the surrounding code panics). -/
def nearestOne (pts : List Color) (q : Color) : Option Nat :=
  match enumColors 0 pts with
  | [] => none
  | ip :: rest => some (nearestAux q rest ip).1

/-- The saturating `as u8` cast applied to each resolved component
(main.rs line 137); palette components are below 256, so it is the identity
on every point the source builds. -/
def clamp8 (p : Color) : Color := (min p.1 255, min p.2.1 255, min p.2.2 255)

/-- One unique-colour lookup of the quantizer (main.rs lines 132-139):
nearest palette index, then the id and the (cast) replacement colour. -/
def quantizeColor (ids : List String) (pts : List Color) (c : Color) :
    Option (String × Color) :=
  (nearestOne pts c).bind (fun i =>
    match ids.get? i, pts.get? i with
    | some id, some p => some (id, clamp8 p)
    | _, _ => none)

/-- The `mapping` HashMap: defined exactly on the colours present in the
image, resolving each through the palette index. -/
def colorMapping (ids : List String) (pts : List Color) (img : Image)
    (c : Color) : Option (String × Color) :=
  if c ∈ pixelColors img then quantizeColor ids pts c else none

/-- The pixel rewrite loop (main.rs lines 142-149): every pixel found in the
mapping is overwritten with its replacement colour, others pass through. -/
def rewriteImage (ids : List String) (pts : List Color) (img : Image) : Image :=
  ⟨img.width, img.height, fun x y =>
    match colorMapping ids pts img (img.pix x y) with
    | some r => r.2
    | none => img.pix x y⟩

/-- The image phase of `run()` (main.rs lines 126-149): normalize the
dimensions, build the mapping over the unique colours (in parallel in the
source; the collected result is order-independent), and rewrite the pixels.
A failed nearest lookup is a worker panic, which aborts the whole phase. -/
def processImage (resample : Resample) (ids : List String) (pts : List Color)
    (img : Image) : Except String Image :=
  let img := resize_to_nearest_64 resample img
  if (pixelColors img).all (fun c => (quantizeColor ids pts c).isSome)
  then Except.ok (rewriteImage ids pts img)
  else Except.error ("panic: nearest_one on an empty palette index")

/-! ## The run-length encoder -/

/-- Add one to the last element of a list (`*counts.last_mut().unwrap() += 1`).
Only ever applied to the non-empty counts vector. -/
def bumpLast : List Nat → List Nat
  | [] => []
  | [n] => [n + 1]
  | n :: rest => n :: bumpLast rest

/-- One step of the row fold (main.rs lines 197-202): extend the current run
if the tile index repeats, otherwise start a new run of length one. -/
def rleStep (st : List Nat × List Nat) (idx : Nat) : List Nat × List Nat :=
  if st.1.getLast? = some idx then (st.1, bumpLast st.2)
  else (st.1 ++ [idx], st.2 ++ [1])

/-- The left-to-right fold over one row of pixels (main.rs lines 191-204),
threading the `(tiles, counts)` state; an unresolvable colour is the panic of
one of the two `expect` calls. -/
def encodeRowAux (resolve : Color → Except String Nat) :
    List Color → (List Nat × List Nat) → Except String (List Nat × List Nat)
  | [], st => Except.ok st
  | c :: cs, st => (resolve c).bind (fun i => encodeRowAux resolve cs (rleStep st i))

/-- The pixels of row `y`, columns left to right. -/
def rowColors (img : Image) (y : Nat) : List Color :=
  (List.range img.width).map (fun x => img.pix x y)

/-- The run-length encoding of one row, starting from empty vectors. -/
def encodeRow (resolve : Color → Except String Nat) (img : Image) (y : Nat) :
    Except String (List Nat × List Nat) :=
  encodeRowAux resolve (rowColors img y) ([], [])

/-- The per-row encodings in traversal order `(0..h).rev()` (main.rs
line 189). -/
def encodeRows (resolve : Color → Except String Nat) (img : Image) :
    Except String (List (List Nat × List Nat)) :=
  ((List.range img.height).reverse).mapM (encodeRow resolve img)

/-- The whole encoder (main.rs lines 189-206): per-row encodings, unzipped
into the nested `tile_array` and `tile_amounts` vectors. -/
def encodeGrid (resolve : Color → Except String Nat) (img : Image) :
    Except String (List (List Nat) × List (List Nat)) :=
  (encodeRows resolve img).map List.unzip

/-- `rgb_to_id` (main.rs lines 185-188): fold the mapping entries
(colour, id, replacement colour) into a map keyed by replacement colour; a
later insertion overwrites an earlier one, hence the reversed search. -/
def rgb_to_id (mapping : List (Color × String × Color)) (c : Color) : Option String :=
  (mapping.reverse.find? (fun e => e.2.2 = c)).map (fun e => e.2.1)

/-- `pidx` (main.rs lines 180-184): tile id to its position in `tmap`; for a
duplicated id the later index overwrites the earlier one in the HashMap. -/
def pidxLookup (tmap : List String) (id : String) : Option Nat :=
  ((tmap.enum.filter (fun p => p.2 = id)).getLast?).map (fun p => p.1)

/-- Pixel-colour resolution of the encoder (main.rs lines 194-196): colour to
tile id, then id to tile index, each `expect` becoming an error. -/
def resolveTile (mapping : List (Color × String × Color)) (tmap : List String)
    (c : Color) : Except String Nat :=
  match rgb_to_id mapping c with
  | none => Except.error ("Color not found")
  | some id =>
    match pidxLookup tmap id with
    | none => Except.error ("ID not in palette index")
    | some i => Except.ok i

/-! ## Document composition phases -/

/-- The tileMap merge (main.rs lines 163-169): when the document holds a
`tileMap` array, push every id of the deduplicated new-id set onto it; any
other shape of document only produces the stderr warning.  `newIds` is the
enumeration the `HashSet` of mapping ids happens to produce (duplicate-free,
order unspecified); the second component collects the warnings printed. -/
def tileMapPhase (doc : Doc) (newIds : List String) : Doc × List String :=
  match docGet doc ("tileMap") with
  | some (J.arr xs) =>
    (docSet doc ("tileMap") (J.arr (xs ++ newIds.map J.str)), [])
  | _ => (doc, [("tileMap array not found in JSON" : String)])

/-- `v.as_str()` of a JSON value. -/
def jAsStr : J → Option String
  | J.str s => some s
  | _ => none

/-- The `tmap` extraction (main.rs lines 174-179): read-index the document at
`tileMap` (missing keys read as `Null`), then `as_array().unwrap()` — a
non-array value is an unconditional panic — and keep the string entries. -/
def tmapOfDoc (doc : Doc) : Except String (List String) :=
  match (docGet doc ("tileMap")).getD J.null with
  | J.arr xs => Except.ok (xs.filterMap jAsStr)
  | _ => Except.error ("panic: Option unwrap on None, tileMap is not an array")

/-- One parsed world-law line (main.rs lines 229-236): `name true` (ASCII
case-insensitive) encodes truth by omitting `boolVal`; any other token writes
`boolVal: false` explicitly. -/
def worldLawRecord (k v : List Char) : J :=
  if eqIgnoreAsciiCase (trimChars v) ("true").data
  then J.obj [(("name" : String), J.str (String.mk (trimChars k)))]
  else J.obj [(("name" : String), J.str (String.mk (trimChars k))),
              (("boolVal" : String), J.bool false)]

/-- All world-law records of the laws file (main.rs lines 226-237): lines
without a space are dropped. -/
def worldLawRecords (laws : String) : List J :=
  (rustLines laws).filterMap (fun l =>
    (splitOnceChar ' ' l).map (fun p => worldLawRecord p.1 p.2))

/-- The world-laws merge (main.rs lines 215-237): extend `worldLaws.list` in
place when it exists as an array; otherwise overwrite the whole `worldLaws`
field with a fresh object holding only the new list.  No warning is ever
printed in this phase, visible in the always-empty second component. -/
def worldLawsPhase (doc : Doc) (laws : String) : Doc × List String :=
  let records := worldLawRecords laws
  match docGet doc ("worldLaws") with
  | some (J.obj wl) =>
    match docGet wl ("list") with
    | some (J.arr xs) =>
      (docSet doc ("worldLaws")
        (J.obj (docSet wl ("list") (J.arr (xs ++ records)))), [])
    | _ =>
      (docSet doc ("worldLaws")
        (J.obj [(("list" : String), J.arr records)]), [])
  | _ =>
    (docSet doc ("worldLaws")
      (J.obj [(("list" : String), J.arr records)]), [])

/-- Pure-white test of the freeze-map loop (main.rs line 249). -/
def isWhite (c : Color) : Bool := c = ((255 : Nat), (255 : Nat), (255 : Nat))

/-- The freeze-map scan (main.rs lines 246-252): walk the enumerated pixels
and push the linear index of every pure-white pixel. -/
def frozen_tiles (img : Image) : List Nat :=
  (pixelSeq img).foldl
    (fun acc p => if isWhite p.2 then acc ++ [p.1] else acc) []

/-- Number of pure-white pixels of an image, counted coordinate-wise. -/
def whitePixelCount (img : Image) : Nat :=
  ((List.range img.height).map (fun y =>
    ((List.range img.width).filter (fun x => isWhite (img.pix x y))).length)).sum

/-! ## JSON rendering of the encoder output -/

/-- `json!(tile_array)` and `json!(tile_amounts)` (main.rs lines 210-211): the
unzipped `Vec<Vec<_>>` serializes as an array of per-row arrays of numbers. -/
def nestedJson (rows : List (List Nat)) : J :=
  J.arr (rows.map (fun r => J.arr (r.map J.num)))

/-- Modelled from the spec: the serialization the C1 sentence describes — one
integer per run, all rows concatenated into a single flat array. -/
def flatJson (rows : List (List Nat)) : J :=
  J.arr (rows.flatten.map J.num)

/-! ## Generic lemmas -/

theorem map_constant {α β : Type} (l : List α) (b : β) :
    l.map (fun _ => b) = List.replicate l.length b := by
  induction l with
  | nil => rfl
  | cons a t ih => simp [List.replicate, ih]

theorem bumpLast_length : ∀ l : List Nat, (bumpLast l).length = l.length
  | [] => rfl
  | [_] => rfl
  | n :: m :: rest => by
    simpa [bumpLast] using bumpLast_length (m :: rest)

theorem bumpLast_sum : ∀ l : List Nat, l ≠ [] → (bumpLast l).sum = l.sum + 1
  | [], h => absurd rfl h
  | [n], _ => by simp [bumpLast]
  | n :: m :: rest, _ => by
    have := bumpLast_sum (m :: rest) (by simp)
    simp [bumpLast, this]
    omega

theorem bumpLast_pos : ∀ l : List Nat, (∀ n ∈ l, 1 ≤ n) → ∀ n ∈ bumpLast l, 1 ≤ n
  | [], _ => by simp [bumpLast]
  | [m], h => by
    simp only [bumpLast, List.mem_singleton]
    intro n hn
    omega
  | m :: k :: rest, h => by
    intro n hn
    simp only [bumpLast, List.mem_cons] at hn
    rcases hn with rfl | hn
    · exact h n (by simp)
    · exact bumpLast_pos (k :: rest) (fun a ha => h a (List.mem_cons_of_mem _ ha)) n hn

theorem rleStep_length (st : List Nat × List Nat) (i : Nat)
    (h : st.1.length = st.2.length) :
    (rleStep st i).1.length = (rleStep st i).2.length := by
  unfold rleStep
  by_cases hc : st.1.getLast? = some i
  · simp [hc, bumpLast_length, h]
  · simp [hc, h]

theorem rleStep_sum (st : List Nat × List Nat) (i : Nat)
    (h : st.1.length = st.2.length) :
    (rleStep st i).2.sum = st.2.sum + 1 := by
  unfold rleStep
  by_cases hc : st.1.getLast? = some i
  · have h1 : st.1 ≠ [] := by
      intro he
      rw [he] at hc
      simp at hc
    have h2 : st.2 ≠ [] := by
      intro he
      apply h1
      have hz : st.1.length = 0 := by rw [h, he]; rfl
      exact List.eq_nil_of_length_eq_zero hz
    simp [hc, bumpLast_sum st.2 h2]
  · simp [hc]

theorem rleStep_pos (st : List Nat × List Nat) (i : Nat)
    (h : ∀ n ∈ st.2, 1 ≤ n) : ∀ n ∈ (rleStep st i).2, 1 ≤ n := by
  unfold rleStep
  by_cases hc : st.1.getLast? = some i
  · simpa [hc] using bumpLast_pos st.2 h
  · intro n hn
    simp only [if_neg hc, List.mem_append, List.mem_singleton] at hn
    rcases hn with hn | rfl
    · exact h n hn
    · exact le_refl 1

theorem encodeRowAux_invariant (resolve : Color → Except String Nat) :
    ∀ (cs : List Color) (st st' : List Nat × List Nat),
      encodeRowAux resolve cs st = Except.ok st' →
      st.1.length = st.2.length →
      st'.1.length = st'.2.length ∧ st'.2.sum = st.2.sum + cs.length ∧
        ((∀ n ∈ st.2, 1 ≤ n) → ∀ n ∈ st'.2, 1 ≤ n) := by
  intro cs
  induction cs with
  | nil =>
    intro st st' hok hlen
    simp only [encodeRowAux] at hok
    cases hok
    exact ⟨hlen, by simp, fun h => h⟩
  | cons c rest ih =>
    intro st st' hok hlen
    simp only [encodeRowAux] at hok
    cases hres : resolve c with
    | error e => rw [hres] at hok; cases hok
    | ok i =>
      rw [hres] at hok
      simp only [Except.bind] at hok
      obtain ⟨l1, l2, l3⟩ := ih (rleStep st i) st' hok (rleStep_length st i hlen)
      refine ⟨l1, ?_, fun hpos => l3 (rleStep_pos st i hpos)⟩
      rw [l2, rleStep_sum st i hlen]
      simp [Nat.add_assoc, Nat.add_comm 1 rest.length]

theorem mapM_ok_get {α β : Type} (f : α → Except String β) :
    ∀ (l : List α) (rs : List β), l.mapM f = Except.ok rs →
      rs.length = l.length ∧
      ∀ i, i < l.length →
        ∃ a b, l.get? i = some a ∧ rs.get? i = some b ∧ f a = Except.ok b := by
  intro l
  induction l with
  | nil =>
    intro rs h
    simp only [List.mapM_nil, pure, Except.pure] at h
    cases h
    exact ⟨rfl, by intro i hi; cases hi⟩
  | cons a t ih =>
    intro rs h
    simp only [List.mapM_cons] at h
    cases hfa : f a with
    | error e => rw [hfa] at h; cases h
    | ok b =>
      rw [hfa] at h
      simp only [Except.bind, bind] at h
      cases hmt : t.mapM f with
      | error e => rw [hmt] at h; cases h
      | ok bs =>
        rw [hmt] at h
        simp only [pure, Except.pure] at h
        cases h
        obtain ⟨hlen, hget⟩ := ih bs hmt
        refine ⟨by simp [hlen], ?_⟩
        intro i hi
        cases i with
        | zero => exact ⟨a, b, rfl, rfl, hfa⟩
        | succ j =>
          obtain ⟨a2, b2, h1, h2, h3⟩ := hget j (Nat.lt_of_succ_lt_succ hi)
          exact ⟨a2, b2, h1, h2, h3⟩

theorem mapM_const_ok {α β : Type} (f : α → Except String β) (v : β) :
    ∀ l : List α, (∀ a ∈ l, f a = Except.ok v) →
      l.mapM f = Except.ok (List.replicate l.length v) := by
  intro l
  induction l with
  | nil => intro _; rfl
  | cons a t ih =>
    intro h
    simp only [List.mapM_cons, h a (by simp), Except.bind, bind,
      ih (fun x hx => h x (List.mem_cons_of_mem _ hx))]
    rfl

theorem unzip_eq_maps {α β : Type} :
    ∀ l : List (α × β), l.unzip = (l.map Prod.fst, l.map Prod.snd) := by
  intro l
  induction l with
  | nil => rfl
  | cons p t ih => simp [List.unzip, ih]

theorem flatten_replicate_singleton {α : Type} (a : α) :
    ∀ n : Nat, (List.replicate n [a]).flatten = List.replicate n a := by
  intro n
  induction n with
  | zero => rfl
  | succ m ih => simp [List.replicate, ih]

theorem grid_index_mod (w x y : Nat) (hx : x < w) : (y * w + x) % w = x := by
  rw [Nat.mul_comm, Nat.mul_add_mod]
  exact Nat.mod_eq_of_lt hx

theorem grid_index_div (w x y : Nat) (hx : x < w) : (y * w + x) / w = y := by
  rw [Nat.mul_comm, Nat.mul_add_div (Nat.lt_of_le_of_lt (Nat.zero_le x) hx) y x]
  simp [Nat.div_eq_of_lt hx]

theorem grid_index_lt (w h x y : Nat) (hx : x < w) (hy : y < h) :
    y * w + x < w * h :=
  calc y * w + x < y * w + w := Nat.add_lt_add_left hx _
    _ = (y + 1) * w := by ring
    _ ≤ h * w := Nat.mul_le_mul_right w hy
    _ = w * h := Nat.mul_comm h w

theorem foldl_push_filter {α β : Type} (q : α → Bool) (f : α → β) :
    ∀ (l : List α) (acc : List β),
      l.foldl (fun a p => if q p then a ++ [f p] else a) acc
        = acc ++ (l.filter q).map f := by
  intro l
  induction l with
  | nil => intro acc; simp
  | cons a t ih =>
    intro acc
    by_cases hq : q a
    · simp [List.foldl_cons, hq, ih]
    · simp [List.foldl_cons, hq, ih]

theorem length_filter_grid (w : Nat) (q : Nat → Nat → Bool) :
    ∀ h : Nat,
      ((List.range (w * h)).filter (fun i => q (i % w) (i / w))).length
        = ((List.range h).map (fun y =>
            ((List.range w).filter (fun x => q x y)).length)).sum := by
  intro h
  induction h with
  | zero => simp
  | succ m ih =>
    have hrange : List.range (w * (m + 1)) =
        List.range (w * m) ++ (List.range w).map (w * m + ·) := by
      rw [Nat.mul_succ, List.range_add]
    rw [hrange, List.filter_append, List.length_append, ih,
      List.range_succ, List.map_append, List.sum_append]
    congr 1
    have hfm : ((List.range w).map (w * m + ·)).filter
        (fun i => q (i % w) (i / w))
        = ((List.range w).filter (fun x => q ((w * m + x) % w) ((w * m + x) / w))).map
            (w * m + ·) := by
      rw [List.filter_map]
      rfl
    rw [hfm, List.length_map]
    have hcong : ∀ x ∈ List.range w,
        (q ((w * m + x) % w) ((w * m + x) / w)) = q x m := by
      intro x hx
      have hxw : x < w := List.mem_range.mp hx
      have hw : 0 < w := Nat.lt_of_le_of_lt (Nat.zero_le x) hxw
      have hmod : (w * m + x) % w = x := by
        rw [Nat.mul_add_mod]
        exact Nat.mod_eq_of_lt hxw
      have hdiv : (w * m + x) / w = m := by
        rw [Nat.mul_add_div hw]
        simp [Nat.div_eq_of_lt hxw]
      rw [hmod, hdiv]
    rw [List.filter_congr hcong]
    simp

theorem filter_pair_fst {alpha : Type} (p : alpha → Bool) (g : Nat → alpha) :
    ∀ l : List Nat,
      ((l.map (fun i => (i, g i))).filter (fun pr => p pr.2)).map (fun pr => pr.1)
        = l.filter (fun i => p (g i)) := by
  intro l
  induction l with
  | nil => rfl
  | cons a t ih =>
    by_cases hq : p (g a)
    · simp [hq, ih]
    · simp [hq, ih]

theorem frozen_tiles_eq_filter (img : Image) :
    frozen_tiles img = (List.range (img.width * img.height)).filter
      (fun i => isWhite (img.pix (i % img.width) (i / img.width))) := by
  unfold frozen_tiles
  rw [foldl_push_filter (fun p => isWhite p.2) (fun p => p.1) (pixelSeq img) []]
  unfold pixelSeq
  rw [filter_pair_fst (fun c => isWhite c)
    (fun i => img.pix (i % img.width) (i / img.width)) (List.range (img.width * img.height))]
  simp

theorem mem_pixelColors (img : Image) (x y : Nat)
    (hx : x < img.width) (hy : y < img.height) :
    img.pix x y ∈ pixelColors img := by
  unfold pixelColors pixelSeq
  rw [List.map_map]
  have hmem : y * img.width + x ∈ List.range (img.width * img.height) :=
    List.mem_range.mpr (grid_index_lt _ _ _ _ hx hy)
  have := List.mem_map_of_mem
    (fun i => ((i, img.pix (i % img.width) (i / img.width)) : Nat × Color).2) hmem
  simpa [grid_index_mod _ _ _ hx, grid_index_div _ _ _ hx] using this

theorem sqDist_self (p : Color) : sqDist p p = 0 := by
  simp [sqDist]

theorem sqDist_nonneg (p q : Color) : 0 ≤ sqDist p q := by
  unfold sqDist
  positivity

theorem sqDist_eq_zero (p q : Color) (h : sqDist p q = 0) : p = q := by
  unfold sqDist at h
  have h1 : ((p.1 : Int) - q.1) ^ 2 = 0 := by
    nlinarith [sq_nonneg ((p.1 : Int) - q.1), sq_nonneg ((p.2.1 : Int) - q.2.1),
      sq_nonneg ((p.2.2 : Int) - q.2.2)]
  have h2 : ((p.2.1 : Int) - q.2.1) ^ 2 = 0 := by
    nlinarith [sq_nonneg ((p.1 : Int) - q.1), sq_nonneg ((p.2.1 : Int) - q.2.1),
      sq_nonneg ((p.2.2 : Int) - q.2.2)]
  have h3 : ((p.2.2 : Int) - q.2.2) ^ 2 = 0 := by
    nlinarith [sq_nonneg ((p.1 : Int) - q.1), sq_nonneg ((p.2.1 : Int) - q.2.1),
      sq_nonneg ((p.2.2 : Int) - q.2.2)]
  have e1 : p.1 = q.1 := by
    have := pow_eq_zero_iff (n := 2) (by norm_num) |>.mp h1
    omega
  have e2 : p.2.1 = q.2.1 := by
    have := pow_eq_zero_iff (n := 2) (by norm_num) |>.mp h2
    omega
  have e3 : p.2.2 = q.2.2 := by
    have := pow_eq_zero_iff (n := 2) (by norm_num) |>.mp h3
    omega
  obtain ⟨a, b, c⟩ := p
  obtain ⟨d, e, f⟩ := q
  simp_all

theorem nearestAux_mem (q : Color) :
    ∀ (l : List (Nat × Color)) (best : Nat × Color),
      nearestAux q l best = best ∨ nearestAux q l best ∈ l := by
  intro l
  induction l with
  | nil => intro best; exact Or.inl rfl
  | cons ip rest ih =>
    intro best
    simp only [nearestAux]
    by_cases hlt : sqDist ip.2 q < sqDist best.2 q
    · rw [if_pos hlt]
      rcases ih ip with h | h
      · exact Or.inr (by simp [h])
      · exact Or.inr (List.mem_cons_of_mem _ h)
    · rw [if_neg hlt]
      rcases ih best with h | h
      · exact Or.inl h
      · exact Or.inr (List.mem_cons_of_mem _ h)

theorem nearestAux_min (q : Color) :
    ∀ (l : List (Nat × Color)) (best : Nat × Color),
      sqDist (nearestAux q l best).2 q ≤ sqDist best.2 q ∧
      ∀ ip ∈ l, sqDist (nearestAux q l best).2 q ≤ sqDist ip.2 q := by
  intro l
  induction l with
  | nil => intro best; exact ⟨le_refl _, by simp⟩
  | cons ip rest ih =>
    intro best
    simp only [nearestAux]
    by_cases hlt : sqDist ip.2 q < sqDist best.2 q
    · rw [if_pos hlt]
      obtain ⟨h1, h2⟩ := ih ip
      refine ⟨le_trans h1 (le_of_lt hlt), ?_⟩
      intro jp hjp
      rcases List.mem_cons.mp hjp with rfl | hjp
      · exact h1
      · exact h2 jp hjp
    · rw [if_neg hlt]
      obtain ⟨h1, h2⟩ := ih best
      refine ⟨h1, ?_⟩
      intro jp hjp
      rcases List.mem_cons.mp hjp with rfl | hjp
      · exact le_trans h1 (le_of_not_lt hlt)
      · exact h2 jp hjp

theorem palStep_lengths (st : List String × List Color) (line : List Char)
    (h : st.1.length = st.2.length) :
    (palStep st line).1.length = (palStep st line).2.length := by
  unfold palStep
  split
  · split
    · simp [h]
    · exact h
  · exact h

theorem parsePalette_lengths (content : String) :
    (parsePalette content).1.length = (parsePalette content).2.length := by
  unfold parsePalette
  generalize rustLines content = lines
  have hgen : ∀ (ls : List (List Char)) (st : List String × List Color),
      st.1.length = st.2.length →
      (ls.foldl palStep st).1.length = (ls.foldl palStep st).2.length := by
    intro ls
    induction ls with
    | nil => intro st h; exact h
    | cons line rest ih =>
      intro st h
      exact ih (palStep st line) (palStep_lengths st line h)
  exact hgen lines ([], []) rfl


theorem enumColors_get : ∀ (l : List Color) (n : Nat) (ip : Nat × Color),
    ip ∈ enumColors n l → n ≤ ip.1 ∧ l.get? (ip.1 - n) = some ip.2 := by
  intro l
  induction l with
  | nil => intro n ip h; cases h
  | cons p t ih =>
    intro n ip h
    rcases List.mem_cons.mp h with rfl | h
    · exact ⟨le_refl _, by simp⟩
    · obtain ⟨h1, h2⟩ := ih (n + 1) ip h
      refine ⟨le_trans (Nat.le_succ n) h1, ?_⟩
      have he : ip.1 - n = (ip.1 - (n + 1)) + 1 := by omega
      rw [he]
      simpa using h2

theorem mem_enumColors : ∀ (l : List Color) (n : Nat) (p : Color),
    p ∈ l → ∃ i, (i, p) ∈ enumColors n l := by
  intro l
  induction l with
  | nil => intro n p h; cases h
  | cons a t ih =>
    intro n p h
    rcases List.mem_cons.mp h with rfl | h
    · exact ⟨n, by simp [enumColors]⟩
    · obtain ⟨i, hi⟩ := ih (n + 1) p h
      exact ⟨i, List.mem_cons_of_mem _ hi⟩

theorem nearestOne_exact (pts : List Color) (c : Color) (hmem : c ∈ pts) :
    ∃ i, nearestOne pts c = some i ∧ pts.get? i = some c := by
  cases hpts : enumColors 0 pts with
  | nil =>
    exfalso
    obtain ⟨i, hi⟩ := mem_enumColors pts 0 c hmem
    rw [hpts] at hi
    cases hi
  | cons ip rest =>
    have hr_mem : nearestAux c rest ip = ip ∨ nearestAux c rest ip ∈ rest :=
      nearestAux_mem c rest ip
    have hmin := nearestAux_min c rest ip
    have hrl : nearestAux c rest ip ∈ enumColors 0 pts := by
      rw [hpts]
      rcases hr_mem with h | h
      · rw [h]; exact List.mem_cons_self _ _
      · exact List.mem_cons_of_mem _ h
    obtain ⟨hge, hget⟩ := enumColors_get pts 0 _ hrl
    obtain ⟨j, hj⟩ := mem_enumColors pts 0 c hmem
    have hle : sqDist (nearestAux c rest ip).2 c ≤ sqDist c c := by
      rw [hpts] at hj
      rcases List.mem_cons.mp hj with hj | hj
      · have hip : ip.2 = c := by rw [← hj]
        calc sqDist (nearestAux c rest ip).2 c ≤ sqDist ip.2 c := hmin.1
          _ = sqDist c c := by rw [hip]
      · simpa using hmin.2 (j, c) hj
    have hzero : sqDist (nearestAux c rest ip).2 c = 0 :=
      le_antisymm (by simpa [sqDist_self] using hle) (sqDist_nonneg _ _)
    have hrc : (nearestAux c rest ip).2 = c := sqDist_eq_zero _ _ hzero
    refine ⟨(nearestAux c rest ip).1, ?_, ?_⟩
    · unfold nearestOne
      rw [hpts]
    · simpa [hrc] using hget

theorem quantizeColor_exact (ids : List String) (pts : List Color) (c : Color)
    (hlen : ids.length = pts.length) (hmem : c ∈ pts)
    (hc : c.1 ≤ 255 ∧ c.2.1 ≤ 255 ∧ c.2.2 ≤ 255) :
    ∃ id, quantizeColor ids pts c = some (id, c) := by
  obtain ⟨i, hn, hget⟩ := nearestOne_exact pts c hmem
  obtain ⟨hi, _⟩ := List.get?_eq_some.mp hget
  have hi2 : i < ids.length := by rw [hlen]; exact hi
  refine ⟨ids.get ⟨i, hi2⟩, ?_⟩
  unfold quantizeColor
  rw [hn]
  simp only [Option.some_bind]
  rw [List.get?_eq_get hi2, hget]
  have hcl : clamp8 c = c := by
    obtain ⟨a, b, d⟩ := c
    obtain ⟨h1, h2, h3⟩ := hc
    simp only [clamp8]
    simp_all [Nat.min_eq_left]
  simp [hcl]

/-! ## Claim C5 -/

/-- C5: for every image handed to the encoder, every row and every successful
row encoding, the emitted run lengths of that row sum to the grid width and
every emitted run length is at least 1 (main.rs lines 189-206). -/
theorem C5_row_sum_width (resolve : Color → Except String Nat) (img : Image)
    (y : Nat) (t a : List Nat)
    (h : encodeRow resolve img y = Except.ok (t, a)) :
    a.sum = img.width ∧ ∀ n ∈ a, 1 ≤ n := by
  obtain ⟨l1, l2, l3⟩ :=
    encodeRowAux_invariant resolve (rowColors img y) ([], []) (t, a) h rfl
  refine ⟨?_, l3 (by simp)⟩
  simpa [rowColors] using l2

/-- A 1-by-1 black image used to instantiate several witnesses. -/
def img11 : Image := ⟨1, 1, fun _ _ => ((0 : Nat), (0 : Nat), (0 : Nat))⟩

/-- Witness for C5 at a concrete one-pixel row. -/
theorem C5_row_sum_width_witness :
    ([1] : List Nat).sum = img11.width ∧ ∀ n ∈ ([1] : List Nat), 1 ≤ n :=
  C5_row_sum_width (fun _ => Except.ok 0) img11 0 [0] [1] rfl

/-! ## Claim C8 -/

/-- C8: the normalized dimensions are multiples of 64, at least 128 on each
axis, and the image the quantize/rewrite phase works on (and hence everything
downstream of line 126) carries exactly those dimensions.  The upper bounds
keep the `u32` arithmetic of line 54 overflow-free, so the `Nat` model is
exact; real decoded images satisfy them. -/
theorem C8_normalized_dims (resample : Resample) (ids : List String)
    (pts : List Color) (img : Image)
    (hw1 : 1 ≤ img.width) (hw2 : img.width ≤ 4294967232)
    (hh1 : 1 ≤ img.height) (hh2 : img.height ≤ 4294967232) :
    (64 ∣ (resize_to_nearest_64 resample img).width ∧
      64 ∣ (resize_to_nearest_64 resample img).height ∧
      128 ≤ (resize_to_nearest_64 resample img).width ∧
      128 ≤ (resize_to_nearest_64 resample img).height) ∧
    (∀ img2, processImage resample ids pts img = Except.ok img2 →
      img2.width = nearest64 img.width ∧ img2.height = nearest64 img.height) := by
  constructor
  · refine ⟨?_, ?_, ?_, ?_⟩
    · show 64 ∣ nearest64 img.width
      unfold nearest64
      exact dvd_mul_left 64 _
    · show 64 ∣ nearest64 img.height
      unfold nearest64
      exact dvd_mul_left 64 _
    · show 128 ≤ nearest64 img.width
      unfold nearest64
      calc (128 : Nat) = 2 * 64 := rfl
        _ ≤ Nat.max ((img.width + 63) / 64) 2 * 64 :=
          Nat.mul_le_mul_right 64 (Nat.le_max_right _ _)
    · show 128 ≤ nearest64 img.height
      unfold nearest64
      calc (128 : Nat) = 2 * 64 := rfl
        _ ≤ Nat.max ((img.height + 63) / 64) 2 * 64 :=
          Nat.mul_le_mul_right 64 (Nat.le_max_right _ _)
  · intro img2 h
    unfold processImage at h
    dsimp only at h
    split at h
    · cases h
      exact ⟨rfl, rfl⟩
    · cases h

/-- A trivial resampler used in witnesses. -/
def resample0 : Resample := fun _ _ _ => fun _ _ => ((0 : Nat), (0 : Nat), (0 : Nat))

/-- Witness for C8 at a concrete 1-by-1 input image. -/
theorem C8_normalized_dims_witness :
    64 ∣ (resize_to_nearest_64 resample0 img11).width ∧
    64 ∣ (resize_to_nearest_64 resample0 img11).height ∧
    128 ≤ (resize_to_nearest_64 resample0 img11).width ∧
    128 ≤ (resize_to_nearest_64 resample0 img11).height :=
  (C8_normalized_dims resample0 [] [] img11 (by decide) (by decide)
    (by decide) (by decide)).1

/-! ## Claim C9 -/

/-- C9: the freeze-map scan emits exactly one index per pure-white pixel, the
index of the pixel at `(x, y)` is `y * width + x`, and the emitted indices are
strictly increasing (row-major order), main.rs lines 246-254. -/
theorem C9_frozen_tiles_spec (img : Image) :
    (frozen_tiles img).length = whitePixelCount img ∧
    (∀ x y, x < img.width → y < img.height →
      ((y * img.width + x) ∈ frozen_tiles img ↔ isWhite (img.pix x y) = true)) ∧
    (frozen_tiles img).Pairwise (· < ·) := by
  refine ⟨?_, ?_, ?_⟩
  · rw [frozen_tiles_eq_filter]
    unfold whitePixelCount
    exact length_filter_grid img.width (fun x y => isWhite (img.pix x y)) img.height
  · intro x y hx hy
    rw [frozen_tiles_eq_filter, List.mem_filter]
    constructor
    · rintro ⟨_, hp⟩
      rwa [grid_index_mod _ _ _ hx, grid_index_div _ _ _ hx] at hp
    · intro hw
      refine ⟨List.mem_range.mpr (grid_index_lt _ _ _ _ hx hy), ?_⟩
      rwa [grid_index_mod _ _ _ hx, grid_index_div _ _ _ hx]
  · rw [frozen_tiles_eq_filter]
    exact List.Pairwise.sublist (List.filter_sublist _) (List.pairwise_lt_range _)

/-- A 1-by-1 pure-white image. -/
def wimg1 : Image := ⟨1, 1, fun _ _ => ((255 : Nat), (255 : Nat), (255 : Nat))⟩

/-- Witness for C9: the single white pixel of a 1-by-1 freeze map is emitted
at linear index `0 * width + 0`. -/
theorem C9_frozen_tiles_spec_witness :
    (0 * wimg1.width + 0) ∈ frozen_tiles wimg1 ↔ isWhite (wimg1.pix 0 0) = true :=
  (C9_frozen_tiles_spec wimg1).2.1 0 0 Nat.one_pos Nat.one_pos

/-! ## Claim C10 -/

/-- C10: when the document has no `worldLaws.list` array (whether `worldLaws`
is absent entirely or present with any other shape), the whole `worldLaws`
value is replaced by a fresh object holding only the parsed records under
`list`, every other top-level field is untouched, and no warning is printed —
unlike the missing-tileMap case (main.rs lines 215-237). -/
theorem C10_worldLaws_wholesale (doc : Doc) (laws : String)
    (h : ∀ wl, docGet doc ("worldLaws") = some (J.obj wl) →
      ∀ xs, docGet wl ("list") ≠ some (J.arr xs)) :
    worldLawsPhase doc laws
      = (docSet doc ("worldLaws")
          (J.obj [(("list" : String), J.arr (worldLawRecords laws))]), []) ∧
    docGet (worldLawsPhase doc laws).1 ("worldLaws")
      = some (J.obj [(("list" : String), J.arr (worldLawRecords laws))]) ∧
    (∀ k2, k2 ≠ ("worldLaws" : String) →
      docGet (worldLawsPhase doc laws).1 k2 = docGet doc k2) ∧
    (worldLawsPhase doc laws).2 = [] := by
  have heq : worldLawsPhase doc laws
      = (docSet doc ("worldLaws")
          (J.obj [(("list" : String), J.arr (worldLawRecords laws))]), []) := by
    unfold worldLawsPhase
    dsimp only
    split
    next wl hwl =>
      split
      next xs hl => exact absurd hl (h wl hwl xs)
      next hne => rfl
    next hne => rfl
  refine ⟨heq, ?_, ?_, ?_⟩
  · rw [heq]
    exact docGet_docSet_self doc _ _
  · intro k2 hk2
    rw [heq]
    exact docGet_docSet_ne doc _ k2 _ hk2
  · rw [heq]

/-- A document whose `worldLaws` field is not even an object. -/
def doc10 : Doc := [(("worldLaws" : String), J.num 5), (("keep" : String), J.bool true)]

/-- Witness for C10 at a concrete malformed document and one law line. -/
theorem C10_worldLaws_wholesale_witness :
    docGet (worldLawsPhase doc10 ("Fire true")).1 ("worldLaws")
      = some (J.obj [(("list" : String), J.arr (worldLawRecords ("Fire true")))]) ∧
    docGet (worldLawsPhase doc10 ("Fire true")).1 ("keep") = docGet doc10 ("keep") := by
  have hthm := C10_worldLaws_wholesale doc10 ("Fire true")
    (by
      intro wl hwl xs hxs
      exact J.noConfusion (Option.some.inj hwl))
  exact ⟨hthm.2.1, hthm.2.2.1 ("keep") (by decide)⟩

/-! ## Claim C2 -/

/-- Membership of a string among the string entries of a JSON array. -/
def jStrElem (id : String) : List J → Bool
  | [] => false
  | J.str s :: rest => s = id || jStrElem id rest
  | _ :: rest => jStrElem id rest

/-- Modelled from the spec: the tileMap append C2 describes, in which ids
already present in the pre-existing tileMap are not appended again. -/
def specTileMapAppend (xs : List J) (newIds : List String) : List J :=
  xs ++ (newIds.filter (fun id => ! jStrElem id xs)).map J.str

/-- The C2 sentence as a proposition about one run of the tileMap phase. -/
def claimC2 (doc : Doc) (xs : List J) (newIds : List String) : Prop :=
  docGet doc ("tileMap") = some (J.arr xs) →
  (tileMapPhase doc newIds).1
    = docSet doc ("tileMap") (J.arr (specTileMapAppend xs newIds))

/-- A document with pre-existing tileMap `["a"]`. -/
def doc2 : Doc := [(("tileMap" : String), J.arr [J.str ("a")])]

/-- C2 counterexample: with pre-existing tileMap `["a"]` and the mapping
contributing the single id `"a"`, the code pushes `"a"` again — membership in
the pre-existing array is never checked, so the claimed suppression of
duplicates against the pre-existing tileMap fails. -/
theorem C2_counterexample :
    (tileMapPhase doc2 [("a")]).1
      = [(("tileMap" : String), J.arr [J.str ("a"), J.str ("a")])] ∧
    ¬ claimC2 doc2 [J.str ("a")] [("a")] := by
  refine ⟨rfl, ?_⟩
  intro hcl
  have h : [(("tileMap" : String), J.arr [J.str ("a"), J.str ("a")])]
      = [(("tileMap" : String), J.arr [J.str ("a")])] := hcl rfl
  simp at h

/-- C2 amended: pre-existing ids are preserved in place and in order, and the
(already deduplicated) new-id set is appended, each id at most once — but
nothing filters out ids already present in the pre-existing tileMap, so those
are appended again.  `newIds` is the arbitrary duplicate-free enumeration the
`HashSet` produces. -/
theorem C2_append_all_new (doc : Doc) (xs : List J) (newIds : List String)
    (hnd : newIds.Nodup) (hget : docGet doc ("tileMap") = some (J.arr xs)) :
    (tileMapPhase doc newIds).1
      = docSet doc ("tileMap") (J.arr (xs ++ newIds.map J.str)) ∧
    docGet (tileMapPhase doc newIds).1 ("tileMap")
      = some (J.arr (xs ++ newIds.map J.str)) ∧
    (newIds.map J.str).Nodup ∧
    (tileMapPhase doc newIds).2 = [] := by
  have heq : tileMapPhase doc newIds
      = (docSet doc ("tileMap") (J.arr (xs ++ newIds.map J.str)), []) := by
    unfold tileMapPhase
    rw [hget]
  refine ⟨by rw [heq], ?_, ?_, by rw [heq]⟩
  · rw [heq]
    exact docGet_docSet_self doc _ _
  · exact hnd.map (fun a b hab => J.str.inj hab)

/-- Witness for C2 amended, at the concrete document and new-id set of the
counterexample. -/
theorem C2_append_all_new_witness :
    docGet (tileMapPhase doc2 [("a")]).1 ("tileMap")
      = some (J.arr ([J.str ("a")] ++ [("a" : String)].map J.str)) :=
  (C2_append_all_new doc2 [J.str ("a")] [("a")] (by simp) rfl).2.1

/-! ## Claim C3 -/

/-- The C3 sentence as a proposition: a palette file parsing to zero valid
entries is rejected at index-build time with an error. -/
def claimC3 (content : String) : Prop :=
  (parsePalette content).1 = [] →
  ∃ msg, buildPaletteIndex content = Except.error msg

/-- C3 counterexample: the empty palette file parses to zero entries, yet
index construction succeeds — main.rs lines 99-115 contain no empty-palette
check and no error of any kind. -/
theorem C3_counterexample : ¬ claimC3 ("") := by
  intro h
  obtain ⟨msg, hmsg⟩ := h rfl
  exact Except.noConfusion hmsg

theorem nearest64_pos (d : Nat) : 0 < nearest64 d := by
  unfold nearest64
  exact Nat.mul_pos
    (Nat.lt_of_lt_of_le (by norm_num) (Nat.le_max_right ((d + 63) / 64) 2))
    (by norm_num)

/-- C3 amended/actual behaviour: index construction always succeeds, even on
a palette with zero entries; the empty palette only fails later, when the
quantizer issues the first nearest-neighbour query, which aborts the image
phase for every input image. -/
theorem C3_no_empty_check (content : String) (resample : Resample) (img : Image)
    (h : (parsePalette content).1 = []) :
    buildPaletteIndex content = Except.ok (parsePalette content) ∧
    processImage resample (parsePalette content).1 (parsePalette content).2 img
      = Except.error ("panic: nearest_one on an empty palette index") := by
  have hpts : (parsePalette content).2 = [] := by
    have hl := parsePalette_lengths content
    rw [h] at hl
    exact List.eq_nil_of_length_eq_zero hl.symm
  refine ⟨rfl, ?_⟩
  unfold processImage
  have hq : ∀ c : Color,
      quantizeColor (parsePalette content).1 (parsePalette content).2 c = none := by
    intro c
    rw [hpts]
    rfl
  have hlen : (pixelColors (resize_to_nearest_64 resample img)).length
      = nearest64 img.width * nearest64 img.height := by
    unfold pixelColors pixelSeq
    simp [resize_to_nearest_64]
  have hne : pixelColors (resize_to_nearest_64 resample img) ≠ [] := by
    apply List.length_pos.mp
    rw [hlen]
    exact Nat.mul_pos (nearest64_pos _) (nearest64_pos _)
  have hall : ((pixelColors (resize_to_nearest_64 resample img)).all
      (fun c => (quantizeColor (parsePalette content).1
        (parsePalette content).2 c).isSome)) = false := by
    apply List.all_eq_false.mpr
    obtain ⟨c, hc⟩ := List.exists_mem_of_ne_nil _ hne
    exact ⟨c, hc, by simp [hq c]⟩
  simp only [hall]
  rfl

/-- Witness for C3 amended at the empty palette file and a concrete image. -/
theorem C3_no_empty_check_witness :
    buildPaletteIndex ("") = Except.ok (parsePalette ("")) ∧
    processImage resample0 (parsePalette ("")).1 (parsePalette ("")).2 img11
      = Except.error ("panic: nearest_one on an empty palette index") :=
  C3_no_empty_check ("") resample0 img11 rfl

/-! ## Claim C4 -/

/-- C4: with a document lacking a `tileMap` array, the merge phase prints the
recoverable warning and leaves the document untouched — but the immediately
following `tmap` extraction (main.rs line 174-176) calls
`as_array().unwrap()` on the missing value and panics, so the run aborts
instead of continuing to completion.  Both halves evaluated at the failing
input, the empty JSON object document. -/
theorem C4_missing_tileMap_warn_then_panic :
    tileMapPhase [] [("a")]
      = ([], [("tileMap array not found in JSON" : String)]) ∧
    tmapOfDoc [] = Except.error
      ("panic: Option unwrap on None, tileMap is not an array") :=
  ⟨rfl, rfl⟩

/-! ## Claim C6 -/

theorem encodeGrid_ok (resolve : Color → Except String Nat) (img : Image)
    (ta am : List (List Nat))
    (h : encodeGrid resolve img = Except.ok (ta, am)) :
    ∃ rs, encodeRows resolve img = Except.ok rs ∧
      ta = rs.map Prod.fst ∧ am = rs.map Prod.snd := by
  unfold encodeGrid at h
  cases hrows : encodeRows resolve img with
  | error e => rw [hrows] at h; cases h
  | ok rs =>
    rw [hrows] at h
    simp only [Except.map] at h
    have h2 : rs.unzip = (ta, am) := by
      injection h
    rw [unzip_eq_maps] at h2
    obtain ⟨e1, e2⟩ := Prod.mk.injEq _ _ _ _ |>.mp h2
    exact ⟨rs, rfl, e1.symm, e2.symm⟩

theorem get?_range_reverse (h i : Nat) (hi : i < h) :
    ((List.range h).reverse).get? i = some (h - 1 - i) := by
  rw [List.get?_reverse (by simpa using hi), List.length_range]
  exact List.get?_range (by omega)

theorem encodeRows_row (resolve : Color → Except String Nat) (img : Image)
    (rs : List (List Nat × List Nat))
    (h : encodeRows resolve img = Except.ok rs) :
    rs.length = img.height ∧
    ∀ i, i < img.height →
      ∃ b, rs.get? i = some b ∧
        encodeRow resolve img (img.height - 1 - i) = Except.ok b := by
  unfold encodeRows at h
  obtain ⟨hlen, hget⟩ := mapM_ok_get _ _ _ h
  refine ⟨by rw [hlen]; simp, ?_⟩
  intro i hi
  have hi2 : i < ((List.range img.height).reverse).length := by simpa using hi
  obtain ⟨a, b, h1, h2, h3⟩ := hget i hi2
  have ha : a = img.height - 1 - i := by
    rw [get?_range_reverse _ _ hi] at h1
    exact (Option.some.inj h1).symm
  rw [ha] at h3
  exact ⟨b, h2, h3⟩

/-- Run-length sum and positivity for one successfully encoded row (shared by
several claims). -/
theorem encodeRow_sum_pos (resolve : Color → Except String Nat) (img : Image)
    (y : Nat) (t a : List Nat)
    (h : encodeRow resolve img y = Except.ok (t, a)) :
    a.sum = img.width ∧ ∀ n ∈ a, 1 ≤ n := by
  obtain ⟨l1, l2, l3⟩ :=
    encodeRowAux_invariant resolve (rowColors img y) ([], []) (t, a) h rfl
  refine ⟨?_, l3 (by simp)⟩
  simpa [rowColors] using l2

/-- C6: a successful encoding has exactly one entry per row; the entry at
position `i` is the encoding of pixel row `height - 1 - i` (so the first
emitted runs encode the bottom pixel row, rows being visited bottom-to-top),
and every row is separately encoded to the full grid width, so no run spans a
row boundary (main.rs lines 189-206). -/
theorem C6_bottom_up_rows (resolve : Color → Except String Nat) (img : Image)
    (ta am : List (List Nat))
    (h : encodeGrid resolve img = Except.ok (ta, am)) :
    (ta.length = img.height ∧ am.length = img.height) ∧
    (∀ i, i < img.height →
      encodeRow resolve img (img.height - 1 - i)
        = Except.ok (ta.getD i [], am.getD i [])) ∧
    (∀ a ∈ am, a.sum = img.width) := by
  obtain ⟨rs, hrows, hta, ham⟩ := encodeGrid_ok resolve img ta am h
  obtain ⟨hlen, hrow⟩ := encodeRows_row resolve img rs hrows
  refine ⟨⟨by rw [hta, List.length_map, hlen],
           by rw [ham, List.length_map, hlen]⟩, ?_, ?_⟩
  · intro i hi
    obtain ⟨b, h2, h3⟩ := hrow i hi
    have h2e : rs[i]? = some b := by rw [← List.get?_eq_getElem?]; exact h2
    have hga : ta.getD i [] = b.1 := by
      rw [hta, List.getD_eq_getElem?_getD, List.getElem?_map, h2e]
      rfl
    have hgb : am.getD i [] = b.2 := by
      rw [ham, List.getD_eq_getElem?_getD, List.getElem?_map, h2e]
      rfl
    rw [hga, hgb]
    exact h3
  · intro a hmem
    rw [ham] at hmem
    obtain ⟨b, hb, rfl⟩ := List.mem_map.mp hmem
    obtain ⟨i, hbi⟩ := List.mem_iff_get?.mp hb
    have hi : i < img.height := by
      rw [← hlen]
      exact (List.get?_eq_some.mp hbi).1
    obtain ⟨b2, h2, h3⟩ := hrow i hi
    have hbb : b2 = b := Option.some.inj (by rw [← hbi, h2])
    rw [← hbb]
    exact (encodeRow_sum_pos resolve img _ b2.1 b2.2 h3).1

/-- A 1-by-2 image: bottom pixel row (y = 1) dark, top row (y = 0) light. -/
def img12 : Image :=
  ⟨1, 2, fun _ y => if y = 0 then ((1 : Nat), (1 : Nat), (1 : Nat))
                    else ((2 : Nat), (2 : Nat), (2 : Nat))⟩

/-- A resolution function distinguishing the two colours of `img12`. -/
def resolve12 : Color → Except String Nat := fun c =>
  if c = ((1 : Nat), (1 : Nat), (1 : Nat)) then Except.ok 1 else Except.ok 0

/-- Witness for C6: on `img12` the first emitted row encoding is that of the
bottom pixel row `y = 1`. -/
theorem C6_bottom_up_rows_witness :
    encodeRow resolve12 img12 (img12.height - 1 - 0)
      = Except.ok (([[0], [1]] : List (List Nat)).getD 0 [],
                   ([[1], [1]] : List (List Nat)).getD 0 []) :=
  (C6_bottom_up_rows resolve12 img12 [[0], [1]] [[1], [1]] rfl).2.1 0 (by decide)

/-! ## Claim C7 -/

/-- On an image whose (byte-valued) pixel colours all occur in the palette,
the rewrite loop leaves every in-range pixel unchanged. -/
theorem rewrite_fixes (ids : List String) (pts : List Color) (img : Image)
    (hlen : ids.length = pts.length)
    (hsub : ∀ x y, x < img.width → y < img.height → img.pix x y ∈ pts)
    (hbyte : ∀ x y, x < img.width → y < img.height →
      (img.pix x y).1 ≤ 255 ∧ (img.pix x y).2.1 ≤ 255 ∧ (img.pix x y).2.2 ≤ 255) :
    ∀ x y, x < img.width → y < img.height →
      (rewriteImage ids pts img).pix x y = img.pix x y := by
  intro x y hx hy
  obtain ⟨id, hid⟩ := quantizeColor_exact ids pts (img.pix x y) hlen
    (hsub x y hx hy) (hbyte x y hx hy)
  show (match colorMapping ids pts img (img.pix x y) with
    | some r => r.2
    | none => img.pix x y) = img.pix x y
  unfold colorMapping
  rw [if_pos (mem_pixelColors img x y hx hy), hid]

/-- C7: for a non-empty palette (implied by the membership hypothesis) and an
image all of whose pixel colours already equal some palette colour,
quantizing and rewriting leaves every pixel unchanged, and a second
quantize-and-rewrite pass returns the first pass's image pixel for pixel
(idempotence), main.rs lines 129-149. -/
theorem C7_quantize_idempotent (ids : List String) (pts : List Color)
    (img : Image) (hlen : ids.length = pts.length)
    (hsub : ∀ x y, x < img.width → y < img.height → img.pix x y ∈ pts)
    (hbyte : ∀ x y, x < img.width → y < img.height →
      (img.pix x y).1 ≤ 255 ∧ (img.pix x y).2.1 ≤ 255 ∧ (img.pix x y).2.2 ≤ 255) :
    ∀ x y, x < img.width → y < img.height →
      (rewriteImage ids pts img).pix x y = img.pix x y ∧
      (rewriteImage ids pts (rewriteImage ids pts img)).pix x y
        = (rewriteImage ids pts img).pix x y := by
  have hfix := rewrite_fixes ids pts img hlen hsub hbyte
  intro x y hx hy
  refine ⟨hfix x y hx hy, ?_⟩
  have hsub2 : ∀ x2 y2, x2 < (rewriteImage ids pts img).width →
      y2 < (rewriteImage ids pts img).height →
      (rewriteImage ids pts img).pix x2 y2 ∈ pts := by
    intro x2 y2 hx2 hy2
    rw [hfix x2 y2 hx2 hy2]
    exact hsub x2 y2 hx2 hy2
  have hbyte2 : ∀ x2 y2, x2 < (rewriteImage ids pts img).width →
      y2 < (rewriteImage ids pts img).height →
      ((rewriteImage ids pts img).pix x2 y2).1 ≤ 255 ∧
      ((rewriteImage ids pts img).pix x2 y2).2.1 ≤ 255 ∧
      ((rewriteImage ids pts img).pix x2 y2).2.2 ≤ 255 := by
    intro x2 y2 hx2 hy2
    rw [hfix x2 y2 hx2 hy2]
    exact hbyte x2 y2 hx2 hy2
  exact rewrite_fixes ids pts (rewriteImage ids pts img) hlen hsub2 hbyte2 x y hx hy

/-- Witness for C7 at a 1-by-1 white image and the palette `1 #FFFFFF`. -/
theorem C7_quantize_idempotent_witness :
    (rewriteImage [("1")] [((255 : Nat), (255 : Nat), (255 : Nat))] wimg1).pix 0 0
        = wimg1.pix 0 0 ∧
    (rewriteImage [("1")] [((255 : Nat), (255 : Nat), (255 : Nat))]
        (rewriteImage [("1")] [((255 : Nat), (255 : Nat), (255 : Nat))] wimg1)).pix 0 0
      = (rewriteImage [("1")] [((255 : Nat), (255 : Nat), (255 : Nat))] wimg1).pix 0 0 :=
  C7_quantize_idempotent [("1")] [((255 : Nat), (255 : Nat), (255 : Nat))] wimg1
    rfl (fun x y _ _ => by simp [wimg1]) (fun x y _ _ => by simp [wimg1])
    0 0 Nat.one_pos Nat.one_pos

/-! ## Claim C1 -/

/-- The C1 sentence as a proposition: over any successful encoding, the
serialized `tileArray` equals the flat one-integer-per-run array the spec
describes (likewise `tileAmounts`), with a 1:1 run/length correspondence. -/
def claimC1 (resolve : Color → Except String Nat) (img : Image) : Prop :=
  ∀ ta am, encodeGrid resolve img = Except.ok (ta, am) →
    nestedJson ta = flatJson ta ∧ nestedJson am = flatJson am ∧
    ta.flatten.length = am.flatten.length

theorem encodeRowAux_replicate (resolve : Color → Except String Nat) (c : Color)
    (i : Nat) (hres : resolve c = Except.ok i) :
    ∀ (n k : Nat), encodeRowAux resolve (List.replicate n c) ([i], [k])
      = Except.ok ([i], [k + n]) := by
  intro n
  induction n with
  | zero => intro k; simp [encodeRowAux]
  | succ m ih =>
    intro k
    rw [List.replicate_succ]
    simp only [encodeRowAux, hres, Except.bind]
    have hstep : rleStep ([i], [k]) i = ([i], [k + 1]) := by
      simp [rleStep, bumpLast]
    have harith : k + 1 + m = k + (m + 1) := by omega
    rw [hstep, ih (k + 1), harith]

theorem encodeRow_replicate (resolve : Color → Except String Nat) (c : Color)
    (i : Nat) (hres : resolve c = Except.ok i) (n : Nat) (hn : 1 ≤ n) :
    encodeRowAux resolve (List.replicate n c) ([], []) = Except.ok ([i], [n]) := by
  cases n with
  | zero => omega
  | succ m =>
    rw [List.replicate_succ]
    simp only [encodeRowAux, hres, Except.bind]
    have hstep : rleStep ([], []) i = ([i], [1]) := by
      simp [rleStep]
    have harith : 1 + m = m + 1 := Nat.add_comm 1 m
    rw [hstep, encodeRowAux_replicate resolve c i hres m 1, harith]

/-- The all-white 128-by-128 image (what any all-white input normalizes to). -/
def whiteImg : Image := ⟨128, 128, fun _ _ => ((255 : Nat), (255 : Nat), (255 : Nat))⟩

/-- The colour mapping a run on `whiteImg` builds with palette `1 #FFFFFF`:
white resolves to id `1`, replacement colour white. -/
def cexMapping : List (Color × String × Color) :=
  [(((255 : Nat), (255 : Nat), (255 : Nat)),
    (("1" : String), ((255 : Nat), (255 : Nat), (255 : Nat))))]

/-- The encoder's resolver for that run, with resulting tileMap `["1"]`. -/
def cexResolve : Color → Except String Nat := resolveTile cexMapping [("1")]

theorem cex_resolve_white :
    cexResolve ((255 : Nat), (255 : Nat), (255 : Nat)) = Except.ok 0 := rfl

theorem cex_encode :
    encodeGrid cexResolve whiteImg
      = Except.ok (List.replicate 128 [0], List.replicate 128 [128]) := by
  have hrow : ∀ y, encodeRow cexResolve whiteImg y = Except.ok ([0], [128]) := by
    intro y
    unfold encodeRow
    have hrc : rowColors whiteImg y
        = List.replicate 128 ((255 : Nat), (255 : Nat), (255 : Nat)) := by
      simp [rowColors, whiteImg, map_constant]
    rw [hrc]
    exact encodeRow_replicate cexResolve _ 0 cex_resolve_white 128 (by norm_num)
  unfold encodeGrid encodeRows
  rw [mapM_const_ok _ _ _ (fun y _ => hrow y)]
  simp only [Except.map, List.length_reverse, List.length_range]
  rw [unzip_eq_maps]
  simp [List.map_replicate, whiteImg]

theorem replicate_head {α : Type} (n : Nat) (a : α) (h : 0 < n) :
    (List.replicate n a).head? = some a := by
  cases n with
  | zero => omega
  | succ m => rfl

/-- C1 counterexample: on the (reachable) all-white 128-by-128 image with
palette `1 #FFFFFF` and tileMap `["1"]`, `json!(tile_array)` is an array of
128 inner arrays — the `unzip()` at main.rs line 206 produces `Vec<Vec<_>>`
per row — not the single flat array of one integer per run that the claim
describes. -/
theorem C1_counterexample : ¬ claimC1 cexResolve whiteImg := by
  intro hcl
  obtain ⟨h1, _, _⟩ :=
    hcl (List.replicate 128 [0]) (List.replicate 128 [128]) cex_encode
  have hn : nestedJson (List.replicate 128 [0])
      = J.arr (List.replicate 128 (J.arr [J.num 0])) := by
    unfold nestedJson
    rw [List.map_replicate]
    rfl
  have hf : flatJson (List.replicate 128 [0])
      = J.arr (List.replicate 128 (J.num 0)) := by
    unfold flatJson
    rw [flatten_replicate_singleton, List.map_replicate]
  rw [hn, hf] at h1
  have h2 : List.replicate 128 (J.arr [J.num 0]) = List.replicate 128 (J.num 0) :=
    J.arr.inj h1
  have h3 := congrArg List.head? h2
  rw [replicate_head _ _ (by norm_num), replicate_head _ _ (by norm_num)] at h3
  exact J.noConfusion (Option.some.inj h3)

theorem encodeRow_lengths (resolve : Color → Except String Nat) (img : Image)
    (y : Nat) (b : List Nat × List Nat)
    (h : encodeRow resolve img y = Except.ok b) : b.1.length = b.2.length := by
  obtain ⟨l1, _, _⟩ :=
    encodeRowAux_invariant resolve (rowColors img y) ([], []) b h rfl
  exact l1

theorem flatten_length_eq {rs : List (List Nat × List Nat)}
    (h : ∀ b ∈ rs, b.1.length = b.2.length) :
    (rs.map Prod.fst).flatten.length = (rs.map Prod.snd).flatten.length := by
  induction rs with
  | nil => rfl
  | cons b t ih =>
    simp only [List.map_cons, List.flatten_cons, List.length_append]
    rw [h b (by simp), ih (fun x hx => h x (List.mem_cons_of_mem _ hx))]

/-- C1 amended: `tileArray` and `tileAmounts` are parallel NESTED arrays —
one inner array per grid row in traversal order; the outer arrays have equal
length, position-wise the inner arrays have equal lengths (1:1 run/length
correspondence row by row), and the row-wise flattenings also have equal
length.  The flat single-array shape the claim describes only arises after
flattening. -/
theorem C1_nested_parallel (resolve : Color → Except String Nat) (img : Image)
    (ta am : List (List Nat))
    (h : encodeGrid resolve img = Except.ok (ta, am)) :
    ta.length = am.length ∧
    (∀ i, (ta.get? i).map List.length = (am.get? i).map List.length) ∧
    ta.flatten.length = am.flatten.length := by
  obtain ⟨rs, hrows, hta, ham⟩ := encodeGrid_ok resolve img ta am h
  have hrowlen : ∀ b ∈ rs, b.1.length = b.2.length := by
    intro b hb
    obtain ⟨i, hbi⟩ := List.mem_iff_get?.mp hb
    obtain ⟨hlen, hrow⟩ := encodeRows_row resolve img rs hrows
    have hi : i < img.height := by
      rw [← hlen]
      exact (List.get?_eq_some.mp hbi).1
    obtain ⟨b2, h2, h3⟩ := hrow i hi
    have hbb : b2 = b := Option.some.inj (by rw [← hbi, h2])
    rw [← hbb]
    exact encodeRow_lengths resolve img _ b2 h3
  subst hta
  subst ham
  refine ⟨by simp, ?_, flatten_length_eq hrowlen⟩
  intro i
  rw [List.get?_map, List.get?_map]
  cases hg : rs.get? i with
  | none => rfl
  | some b =>
    simp only [Option.map_some']
    rw [hrowlen b (List.mem_iff_get?.mpr ⟨i, hg⟩)]

/-- Witness for C1 amended at the concrete all-white run. -/
theorem C1_nested_parallel_witness :
    (List.replicate 128 ([0] : List Nat)).length
      = (List.replicate 128 ([128] : List Nat)).length :=
  (C1_nested_parallel cexResolve whiteImg (List.replicate 128 [0])
    (List.replicate 128 [128]) cex_encode).1
